import Mathlib

/-!
Verification of `src/xd/lib/bittorrent/swarm/torrent.go` (package `swarm`).

The Go code is embedded shallowly:

* `[]byte` slices become `List Nat` (each entry a byte value);
* `uint32` values become `Nat`; where the source's 32-bit arithmetic can wrap
  in a way that matters (the bounds checks of `put` and `cancel`, and the
  index arithmetic of their write loops) the wrap is modelled explicitly with
  `% U32`; elsewhere (the loop counter of `nextOffset`, whose strides start
  at 0 and step by `BlockSize`) values are kept as plain `Nat`, assuming the
  progress slice of a real piece fits in a `uint32`;
* a Go index/slice operation that would panic makes the embedded function
  return `none`;
* effectful operations (dial, handshake send/receive, storage lookup, the
  tracker response loop, the run loop) are embedded as pure functions over
  the outcomes of their external calls, returning the externally observable
  actions (connection closed, message sent, map updates, error value).
-/

/-- Block size constant from the source: `const BlockSize = 1024 * 16`. -/
def BlockSize : Nat := 1024 * 16

/-- Status byte: `const Missing = 0`. -/
def Missing : Nat := 0

/-- Status byte: `const Pending = 1`. -/
def Pending : Nat := 1

/-- Status byte: `const Obtained = 2`. -/
def Obtained : Nat := 2

/-- Modulus of Go `uint32` arithmetic. -/
def U32 : Nat := 2 ^ 32

/-- The piece data held by a `cachedPiece` (`common.PieceData`: fields
`Index`, `Begin`, `Data` as used by the source; the `common` package is
outside the repository slice, its fields are taken from their uses in
`torrent.go`). -/
structure PieceData where
  Index : Nat
  Begin : Nat
  Data : List Nat
deriving DecidableEq, Repr

/-- The `cachedPiece` struct: a piece buffer plus the per-byte progress
slice (the mutex only serializes access and has no sequential content). -/
structure CachedPiece where
  piece : PieceData
  progress : List Nat
deriving DecidableEq, Repr

/-- Inner marking loop of `nextOffset`: `var i uint32; for i < BlockSize {
p.progress[idx+i] = Pending; i++ }`, writing one status byte at a time at
ascending indices starting at `j`; `n` counts the writes still to do.
`none` models the out-of-range panic of `p.progress[idx+i]`. -/
def markPendingLoop : List Nat → Nat → Nat → Option (List Nat)
  | prog, _, 0 => some prog
  | prog, j, n + 1 =>
    if j < prog.length then markPendingLoop (prog.set j Pending) (j + 1) n
    else none

/-- The scan loop of `cachedPiece.nextOffset`: starting at `idx`, step by
`BlockSize` until a byte equal to `Missing` is found at a stride start; then
mark `BlockSize` bytes `Pending` and return.  The named return value `has`
is still `false` at the `return` inside the loop, and the trailing
`if idx < l { has = true }` runs only after the loop exit (where `idx < l`
is false), which the final branch reproduces verbatim. -/
def nextOffsetLoop (prog : List Nat) (idx : Nat) : Option (Bool × Nat × List Nat) :=
  if h : idx < prog.length then
    if prog[idx] = Missing then
      match markPendingLoop prog idx BlockSize with
      | some prog2 => some (false, idx, prog2)
      | none => none
    else nextOffsetLoop prog (idx + BlockSize)
  else some (decide (idx < prog.length), idx, prog)
termination_by prog.length - idx
decreasing_by simp only [BlockSize]; omega

/-- `cachedPiece.nextOffset`: the scan starts at `idx = 0`.  The result is
`(has, idx, progress)` together with `none` for a panic. -/
def nextOffset (prog : List Nat) : Option (Bool × Nat × List Nat) :=
  nextOffsetLoop prog 0

/-- `cachedPiece.done`: `for _, b := range p.progress { if b != Obtained
{ return false } }; return true`. -/
def done (prog : List Nat) : Bool :=
  prog.all fun b => b == Obtained

/-- Go's `copy(dst[offset:], src)`: slicing `dst[offset:]` panics when
`offset > len(dst)` (modelled as `none`); otherwise
`min (len dst - offset) (len src)` elements are copied in place. -/
def goCopy (dst : List Nat) (offset : Nat) (src : List Nat) : Option (List Nat) :=
  if offset ≤ dst.length then
    some (dst.take offset ++ src.take (dst.length - offset) ++ dst.drop (offset + src.length))
  else none

/-- The progress-marking loop of `cachedPiece.put`: `for idx := range data {
p.progress[uint32(idx)+offset] = Obtained }`, with the source's `uint32`
index arithmetic; `idx` is the running loop index and `n` the number of
iterations left.  `none` models the out-of-range panic. -/
def markObtainedLoop : List Nat → Nat → Nat → Nat → Option (List Nat)
  | prog, _, _, 0 => some prog
  | prog, offset, idx, n + 1 =>
    if (idx % U32 + offset) % U32 < prog.length then
      markObtainedLoop (prog.set ((idx % U32 + offset) % U32) Obtained) offset (idx + 1) n
    else none

/-- `cachedPiece.put(offset, data)`: the bounds check
`offset+uint32(len(data)) <= l` is 32-bit arithmetic and can wrap; when it
passes, the data is copied into the piece buffer and the matching progress
bytes are marked `Obtained`; otherwise the call only logs a warning. -/
def put (p : CachedPiece) (offset : Nat) (data : List Nat) : Option CachedPiece :=
  if (offset + data.length % U32) % U32 ≤ p.progress.length % U32 then
    match goCopy p.piece.Data offset data with
    | none => none
    | some d2 =>
      match markObtainedLoop p.progress offset 0 data.length with
      | none => none
      | some prog2 => some { piece := { p.piece with Data := d2 }, progress := prog2 }
  else some p

/-- The write loop of `cachedPiece.cancel`: `for length > 0 { length--;
p.progress[offset+length] = Missing }`, writing at descending indices with
the source's `uint32` index arithmetic. -/
def cancelLoop : List Nat → Nat → Nat → Option (List Nat)
  | prog, _, 0 => some prog
  | prog, offset, n + 1 =>
    if (offset + n) % U32 < prog.length then
      cancelLoop (prog.set ((offset + n) % U32) Missing) offset n
    else none

/-- `cachedPiece.cancel(offset, length)`: guarded by the 32-bit check
`offset+length <= l`; when it passes, the range is reset to `Missing`
byte by byte, highest index first. -/
def cancel (p : CachedPiece) (offset length : Nat) : Option CachedPiece :=
  if (offset + length) % U32 ≤ p.progress.length % U32 then
    match cancelLoop p.progress offset length with
    | none => none
    | some prog2 => some { p with progress := prog2 }
  else some p

/-- Run a sequence of `put` calls left to right (each pair is
`(offset, data)`); `none` as soon as one of them panics. -/
def runPuts : CachedPiece → List (Nat × List Nat) → Option CachedPiece
  | p, [] => some p
  | p, pr :: rest =>
    match put p pr.1 pr.2 with
    | none => none
    | some p2 => runPuts p2 rest

/-- Externally observable outcome of one `Torrent.AddPeer` call: whether the
raw connection ended up closed, whether the address was marked `true`
(active) in `t.conns`, and the returned error value. -/
structure AddPeerResult where
  connClosed : Bool
  registeredActive : Bool
  error : Option Nat
deriving DecidableEq, Repr

/-- `Torrent.AddPeer(a, id)`, embedded over the outcomes of its external
calls: `dialErr`, `sendErr`, `recvErr` are the error results of
`t.Net.Dial`, `h.Send`, `h.Recv` (`none` = Go `nil`), and `recvInfohash`
is the infohash written into `h` by a successful `h.Recv`.  The source
compares `bytes.Equal(ih[:], h.Infohash[:])`; on a match it starts the peer
connection and marks the address active; on any other path it closes the
connection (except when the dial itself failed) and returns the current
value of `err` — which after a successful `Recv` is still `nil`.  The
`expectedPeerID` argument of the source is never compared and is omitted. -/
def addPeer (localInfohash : List Nat) (dialErr sendErr recvErr : Option Nat)
    (recvInfohash : List Nat) : AddPeerResult :=
  match dialErr with
  | some e => { connClosed := false, registeredActive := false, error := some e }
  | none =>
    match sendErr with
    | some e => { connClosed := true, registeredActive := false, error := some e }
    | none =>
      match recvErr with
      | some e => { connClosed := true, registeredActive := false, error := some e }
      | none =>
        if localInfohash = recvInfohash then
          { connClosed := false, registeredActive := true, error := none }
        else
          { connClosed := true, registeredActive := false, error := none }

/-- `Torrent.PersistPeer(a, id)` loop: `dn k` is the value of `t.Done()` at
the start of iteration `k` and `er k` the error of the `k`-th `AddPeer`
attempt (`none` = success).  The result is (number of `AddPeer` calls made,
whether one of them succeeded).  `triesLeft` is the Go `int` counter: it is
decremented on failure and the loop returns when it reaches `0`; from the
initial value `10` it never enters the loop body at `0`, so the `0` case
below (returning like the `1` case) is unreachable in the modelled call. -/
def persistPeerLoop (dn : Nat → Bool) (er : Nat → Option Nat) : Nat → Nat → Nat × Bool
  | 0, k =>
    if dn k then (k, false)
    else
      match er k with
      | none => (k + 1, true)
      | some _ => (k + 1, false)
  | 1, k =>
    if dn k then (k, false)
    else
      match er k with
      | none => (k + 1, true)
      | some _ => (k + 1, false)
  | t + 2, k =>
    if dn k then (k, false)
    else
      match er k with
      | none => (k + 1, true)
      | some _ => persistPeerLoop dn er (t + 1) (k + 1)

/-- `Torrent.PersistPeer` starts with `triesLeft := 10` and attempt index 0. -/
def persistPeer (dn : Nat → Bool) (er : Nat → Option Nat) : Nat × Bool :=
  persistPeerLoop dn er 10 0

/-- State touched by the peer loop of `Torrent.Announce`: `conns` is the
`t.conns` map (`t.cmtx` only serializes access), an association list from
address string to the reserved/active flag, and `dialed` records, in
order, the addresses for which a `go t.PersistPeer(...)` was started. -/
structure AnnounceState where
  conns : List (String × Bool)
  dialed : List String
deriving DecidableEq, Repr

/-- One iteration of the `for _, p := range resp.Peers` loop of
`Torrent.Announce`: `cand` is the result of `p.Resolve(t.Net)` (`none` =
resolve error, which is only logged).  A resolved address equal to the
local address or already a key of `conns` (`Torrent.HasConn`) is skipped;
otherwise it is inserted with value `false` and a `PersistPeer` attempt is
started for it. -/
def announceStep (localAddr : String) (st : AnnounceState) (cand : Option String) :
    AnnounceState :=
  match cand with
  | none => st
  | some a =>
    if a = localAddr ∨ (st.conns.lookup a).isSome then st
    else { conns := (a, false) :: st.conns, dialed := st.dialed ++ [a] }

/-- The peer loop of `Torrent.Announce` over the whole list of resolved
candidates of one tracker response. -/
def announce (localAddr : String) (st : AnnounceState) (cands : List (Option String)) :
    AnnounceState :=
  cands.foldl (announceStep localAddr) st

/-- Wire message as built by `common.NewWireMessage(id, payload)` (the
`common` package is outside the repository slice; a message is its type id
plus its payload bytes). -/
structure WireMessage where
  id : Nat
  payload : List Nat
deriving DecidableEq, Repr

/-- Modelled from the spec: `common.Piece`, the "piece" wire message type
tag, is defined outside the repository slice; BitTorrent's piece message id
is 7, and only its identity matters here. -/
def Piece : Nat := 7

/-- `common.PieceRequest` fields as used by `Torrent.Run` (`r.Index`,
`r.Begin`, `r.Length`; the `common` package is outside the repository
slice). -/
structure PieceRequest where
  Index : Nat
  Begin : Nat
  Length : Nat
deriving DecidableEq, Repr

/-- Big-endian 4-byte encoding written by `binary.BigEndian.PutUint32`. -/
def be32 (n : Nat) : List Nat :=
  [n / 2 ^ 24 % 256, n / 2 ^ 16 % 256, n / 2 ^ 8 % 256, n % 256]

/-- Action taken by one iteration of `Torrent.Run` on the originating peer
connection: either `ev.c.Close()` or `ev.c.Send(msg)`. -/
inductive RunAction where
  | closeConn : RunAction
  | send : WireMessage → RunAction
deriving DecidableEq, Repr

/-- One iteration of the event loop `Torrent.Run`, embedded over the
storage lookup `getPiece` (= `t.st.GetPiece`, `none` = Go `nil`): a
zero-length request closes the connection; a request whose piece is not in
storage closes the connection; otherwise the response payload
`d = make([]byte, 8+dl)` is filled with the big-endian index, the
big-endian begin offset and the piece data, and sent as a `common.Piece`
wire message. -/
def runStep (getPiece : PieceRequest → Option PieceData) (r : PieceRequest) : RunAction :=
  if 0 < r.Length then
    match getPiece r with
    | none => RunAction.closeConn
    | some p => RunAction.send ⟨Piece, be32 p.Index ++ be32 p.Begin ++ p.Data⟩
  else RunAction.closeConn

/-! ## Helper lemmas about the status-array loops -/

/-- Reading back the written index of a `List.set`. -/
theorem getD_set_self (prog : List Nat) (j v : Nat) (h : j < prog.length) :
    (prog.set j v).getD j 0 = v := by
  simp [List.getD_eq_getElem?_getD, List.getElem?_set, h]

/-- Reading an untouched index of a `List.set`. -/
theorem getD_set_ne (prog : List Nat) (j k v : Nat) (h : j ≠ k) :
    (prog.set j v).getD k 0 = prog.getD k 0 := by
  simp [List.getD_eq_getElem?_getD, List.getElem?_set, h]

/-- When the whole stride fits, the marking loop of `nextOffset` succeeds
and sets exactly the bytes `[j, j+n)` to `Pending`. -/
theorem markPendingLoop_some (n : Nat) : ∀ (prog : List Nat) (j : Nat),
    j + n ≤ prog.length →
    ∃ prog2, markPendingLoop prog j n = some prog2 ∧ prog2.length = prog.length ∧
      ∀ k, prog2.getD k 0 = if j ≤ k ∧ k < j + n then Pending else prog.getD k 0 := by
  induction n with
  | zero =>
    intro prog j _
    refine ⟨prog, rfl, rfl, fun k => ?_⟩
    rw [if_neg (by omega : ¬(j ≤ k ∧ k < j + 0))]
  | succ n ih =>
    intro prog j h
    have hj : j < prog.length := by omega
    obtain ⟨prog2, h1, h2, h3⟩ := ih (prog.set j Pending) (j + 1)
      (by rw [List.length_set]; omega)
    refine ⟨prog2, ?_, ?_, fun k => ?_⟩
    · simp only [markPendingLoop, if_pos hj]
      exact h1
    · rw [h2, List.length_set]
    · rw [h3 k]
      rcases Nat.lt_trichotomy k j with hk | hk | hk
      · have c1 : ¬(j + 1 ≤ k ∧ k < j + 1 + n) := by omega
        have c2 : ¬(j ≤ k ∧ k < j + (n + 1)) := by omega
        rw [if_neg c1, if_neg c2, getD_set_ne _ _ _ _ (by omega)]
      · subst hk
        have c1 : ¬(k + 1 ≤ k ∧ k < k + 1 + n) := by omega
        have c2 : k ≤ k ∧ k < k + (n + 1) := by omega
        rw [if_neg c1, if_pos c2, getD_set_self _ _ _ hj]
      · by_cases c : k < j + 1 + n
        · have c1 : j + 1 ≤ k ∧ k < j + 1 + n := by omega
          have c2 : j ≤ k ∧ k < j + (n + 1) := by omega
          rw [if_pos c1, if_pos c2]
        · have c1 : ¬(j + 1 ≤ k ∧ k < j + 1 + n) := by omega
          have c2 : ¬(j ≤ k ∧ k < j + (n + 1)) := by omega
          rw [if_neg c1, if_neg c2, getD_set_ne _ _ _ _ (by omega)]

/-- When the stride sticks out past the end of the array, the marking loop
of `nextOffset` panics. -/
theorem markPendingLoop_none (n : Nat) : ∀ (prog : List Nat) (j : Nat),
    0 < n → prog.length < j + n → markPendingLoop prog j n = none := by
  induction n with
  | zero => intro prog j h _; omega
  | succ n ih =>
    intro prog j _ hlen
    by_cases hj : j < prog.length
    · have hn : 0 < n := by omega
      simp only [markPendingLoop, if_pos hj]
      exact ih _ _ hn (by rw [List.length_set]; omega)
    · simp only [markPendingLoop, if_neg hj]

/-- One-step unfolding of the scan loop of `nextOffset`. -/
theorem nextOffsetLoop_eq (prog : List Nat) (idx : Nat) :
    nextOffsetLoop prog idx =
      if h : idx < prog.length then
        if prog[idx] = Missing then
          match markPendingLoop prog idx BlockSize with
          | some prog2 => some (false, idx, prog2)
          | none => none
        else nextOffsetLoop prog (idx + BlockSize)
      else some (decide (idx < prog.length), idx, prog) := by
  rw [nextOffsetLoop]

/-- The scan skips `m` strides whose first bytes are not `Missing`. -/
theorem nextOffsetLoop_skip (m : Nat) : ∀ (prog : List Nat) (idx : Nat),
    idx + m * BlockSize ≤ prog.length →
    (∀ i, i < m → prog.getD (idx + i * BlockSize) 0 ≠ Missing) →
    nextOffsetLoop prog idx = nextOffsetLoop prog (idx + m * BlockSize) := by
  induction m with
  | zero => intro prog idx _ _; simp
  | succ m ih =>
    intro prog idx hlen hmiss
    have hB : 0 < BlockSize := by norm_num [BlockSize]
    have hstep : idx + (m + 1) * BlockSize = (idx + BlockSize) + m * BlockSize := by ring
    have hidx : idx < prog.length := by
      have : 0 < (m + 1) * BlockSize := Nat.mul_pos (Nat.succ_pos m) hB
      omega
    have hne : prog[idx] ≠ Missing := by
      have h0 := hmiss 0 (Nat.succ_pos m)
      rwa [Nat.zero_mul, Nat.add_zero, List.getD_eq_getElem _ _ hidx] at h0
    rw [nextOffsetLoop_eq, dif_pos hidx, if_neg hne, hstep]
    exact ih prog (idx + BlockSize) (by omega)
      (fun i hi => by
        have := hmiss (i + 1) (by omega)
        rwa [show idx + (i + 1) * BlockSize = idx + BlockSize + i * BlockSize by ring] at this)

/-- When the length of the status array is a multiple of `BlockSize`, the
scan never panics (part (a) of the safety claim). -/
theorem nextOffsetLoop_isSome (prog : List Nat) (h2 : prog.length % BlockSize = 0) :
    ∀ idx, idx % BlockSize = 0 → (nextOffsetLoop prog idx).isSome := by
  have main : ∀ d idx, prog.length - idx ≤ d → idx % BlockSize = 0 →
      (nextOffsetLoop prog idx).isSome := by
    intro d
    induction d with
    | zero =>
      intro idx hd _
      rw [nextOffsetLoop_eq, dif_neg (by omega)]
      simp
    | succ d ih =>
      intro idx hd h1
      by_cases hidx : idx < prog.length
      · rw [nextOffsetLoop_eq, dif_pos hidx]
        by_cases hm : prog[idx] = Missing
        · rw [if_pos hm]
          have hle : idx + BlockSize ≤ prog.length := by
            obtain ⟨a, ha⟩ := Nat.dvd_of_mod_eq_zero h1
            obtain ⟨c, hc⟩ := Nat.dvd_of_mod_eq_zero h2
            have hac : a < c := by
              by_contra hcon
              push_neg at hcon
              have : BlockSize * c ≤ BlockSize * a := Nat.mul_le_mul_left _ hcon
              omega
            calc idx + BlockSize = BlockSize * (a + 1) := by rw [ha]; ring
              _ ≤ BlockSize * c := Nat.mul_le_mul_left _ hac
              _ = prog.length := hc.symm
          obtain ⟨prog2, he, -, -⟩ := markPendingLoop_some BlockSize prog idx hle
          rw [he]
          rfl
        · rw [if_neg hm]
          have hB : 0 < BlockSize := by norm_num [BlockSize]
          exact ih (idx + BlockSize) (by omega) (by rw [Nat.add_mod_right]; exact h1)
      · rw [nextOffsetLoop_eq, dif_neg hidx]
        simp
  intro idx h1
  exact main (prog.length - idx) idx le_rfl h1

/-- If the `idx`-th result of the scan succeeded, the `has` flag is `false`:
the `return` inside the loop leaves the named return value at its zero
value and the trailing `if idx < l` is dead code. -/
theorem nextOffsetLoop_fst_false (prog : List Nat) :
    ∀ idx res, nextOffsetLoop prog idx = some res → res.1 = false := by
  have main : ∀ d idx res, prog.length - idx ≤ d →
      nextOffsetLoop prog idx = some res → res.1 = false := by
    intro d
    induction d with
    | zero =>
      intro idx res hd h
      have hni : ¬ idx < prog.length := by omega
      rw [nextOffsetLoop_eq, dif_neg hni] at h
      simp only [Option.some_inj] at h
      rw [← h]
      simp [hni]
    | succ d ih =>
      intro idx res hd h
      by_cases hidx : idx < prog.length
      · rw [nextOffsetLoop_eq, dif_pos hidx] at h
        by_cases hm : prog[idx] = Missing
        · rw [if_pos hm] at h
          cases he : markPendingLoop prog idx BlockSize with
          | none => rw [he] at h; cases h
          | some prog2 =>
            rw [he] at h
            simp only [Option.some_inj] at h
            rw [← h]
        · rw [if_neg hm] at h
          have hB : 0 < BlockSize := by norm_num [BlockSize]
          exact ih (idx + BlockSize) res (by omega) h
      · rw [nextOffsetLoop_eq, dif_neg hidx] at h
        simp only [Option.some_inj] at h
        rw [← h]
        simp [hidx]
  intro idx res h
  exact main (prog.length - idx) idx res le_rfl h

/-- In-bounds behavior of the write loop of `cancel`: the bytes
`[offset, offset+n)` become `Missing`, nothing else changes. -/
theorem cancelLoop_some (n : Nat) : ∀ (prog : List Nat) (offset : Nat),
    offset + n ≤ prog.length → prog.length < U32 →
    ∃ prog2, cancelLoop prog offset n = some prog2 ∧ prog2.length = prog.length ∧
      ∀ k, prog2.getD k 0 = if offset ≤ k ∧ k < offset + n then Missing else prog.getD k 0 := by
  induction n with
  | zero =>
    intro prog offset _ _
    refine ⟨prog, rfl, rfl, fun k => ?_⟩
    rw [if_neg (by omega : ¬(offset ≤ k ∧ k < offset + 0))]
  | succ n ih =>
    intro prog offset h hu
    have hmod : (offset + n) % U32 = offset + n := Nat.mod_eq_of_lt (by omega)
    have hj : offset + n < prog.length := by omega
    obtain ⟨prog2, h1, h2, h3⟩ := ih (prog.set (offset + n) Missing) offset
      (by rw [List.length_set]; omega) (by rw [List.length_set]; exact hu)
    refine ⟨prog2, ?_, ?_, fun k => ?_⟩
    · simp only [cancelLoop, hmod, if_pos hj]
      exact h1
    · rw [h2, List.length_set]
    · rw [h3 k]
      by_cases hk : offset ≤ k ∧ k < offset + n
      · rw [if_pos hk, if_pos (by omega)]
      · rw [if_neg hk]
        by_cases hk2 : k = offset + n
        · subst hk2
          rw [if_pos (by omega), getD_set_self _ _ _ hj]
        · rw [if_neg (by omega), getD_set_ne _ _ _ _ (by omega)]

/-- In-bounds behavior of `cachedPiece.cancel`: when the (unwrapped) range
fits, the call succeeds and resets exactly `[offset, offset+length)` to
`Missing`. -/
theorem cancel_spec (p : CachedPiece) (offset length : Nat)
    (hin : offset + length ≤ p.progress.length) (hu : p.progress.length < U32) :
    ∃ prog2, cancel p offset length = some ⟨p.piece, prog2⟩ ∧
      prog2.length = p.progress.length ∧
      ∀ k, prog2.getD k 0 =
        if offset ≤ k ∧ k < offset + length then Missing else p.progress.getD k 0 := by
  have hguard : (offset + length) % U32 ≤ p.progress.length % U32 := by
    rw [Nat.mod_eq_of_lt (by omega : offset + length < U32), Nat.mod_eq_of_lt hu]
    exact hin
  obtain ⟨prog2, hc, hlen, hk⟩ := cancelLoop_some length p.progress offset hin hu
  exact ⟨prog2, by rw [cancel, if_pos hguard, hc], hlen, hk⟩

/-- In-bounds behavior of the progress-marking loop of `put`: starting at
loop index `start`, the bytes `[offset+start, offset+start+n)` become
`Obtained`, nothing else changes. -/
theorem markObtainedLoop_some (n : Nat) : ∀ (prog : List Nat) (offset start : Nat),
    offset + start + n ≤ prog.length → prog.length < U32 →
    ∃ prog2, markObtainedLoop prog offset start n = some prog2 ∧
      prog2.length = prog.length ∧
      ∀ k, prog2.getD k 0 =
        if offset + start ≤ k ∧ k < offset + start + n then Obtained
        else prog.getD k 0 := by
  induction n with
  | zero =>
    intro prog offset start _ _
    refine ⟨prog, rfl, rfl, fun k => ?_⟩
    rw [if_neg (by omega : ¬(offset + start ≤ k ∧ k < offset + start + 0))]
  | succ n ih =>
    intro prog offset start h hu
    have hs : start % U32 = start := Nat.mod_eq_of_lt (by omega)
    have hmod : (start % U32 + offset) % U32 = offset + start := by
      rw [hs, Nat.add_comm start offset]
      exact Nat.mod_eq_of_lt (by omega)
    have hj : offset + start < prog.length := by omega
    obtain ⟨prog2, h1, h2, h3⟩ := ih (prog.set (offset + start) Obtained) offset (start + 1)
      (by rw [List.length_set]; omega) (by rw [List.length_set]; exact hu)
    refine ⟨prog2, ?_, ?_, fun k => ?_⟩
    · simp only [markObtainedLoop, hmod, if_pos hj]
      exact h1
    · rw [h2, List.length_set]
    · rw [h3 k]
      by_cases hk : offset + (start + 1) ≤ k ∧ k < offset + (start + 1) + n
      · rw [if_pos hk, if_pos (by omega)]
      · rw [if_neg hk]
        by_cases hk2 : k = offset + start
        · subst hk2
          rw [if_pos (by omega), getD_set_self _ _ _ hj]
        · rw [if_neg (by omega), getD_set_ne _ _ _ _ (by omega)]

/-- When `offset` is within the destination, Go's `copy` into
`dst[offset:]` succeeds and preserves the destination length. -/
theorem goCopy_some (dst : List Nat) (offset : Nat) (src : List Nat)
    (h : offset ≤ dst.length) :
    ∃ d2, goCopy dst offset src = some d2 ∧ d2.length = dst.length := by
  refine ⟨_, by rw [goCopy, if_pos h], ?_⟩
  simp only [List.length_append, List.length_take, List.length_drop]
  omega

/-- In-bounds behavior of `cachedPiece.put`: when the (unwrapped) range fits
and the piece buffer matches the status array in length, the call succeeds,
preserves both lengths, and marks exactly `[offset, offset+len(data))`
`Obtained`. -/
theorem put_spec (p : CachedPiece) (offset : Nat) (data : List Nat)
    (hd : p.piece.Data.length = p.progress.length)
    (hu : p.progress.length < U32)
    (hin : offset + data.length ≤ p.progress.length) :
    ∃ p2, put p offset data = some p2 ∧
      p2.piece.Data.length = p.progress.length ∧
      p2.progress.length = p.progress.length ∧
      ∀ k, p2.progress.getD k 0 =
        if offset ≤ k ∧ k < offset + data.length then Obtained
        else p.progress.getD k 0 := by
  have hguard : (offset + data.length % U32) % U32 ≤ p.progress.length % U32 := by
    rw [Nat.mod_eq_of_lt (by omega : data.length < U32),
      Nat.mod_eq_of_lt (by omega : offset + data.length < U32), Nat.mod_eq_of_lt hu]
    exact hin
  obtain ⟨d2, hc, hcl⟩ := goCopy_some p.piece.Data offset data (by omega)
  obtain ⟨prog2, hm, hml, hmk⟩ := markObtainedLoop_some data.length p.progress offset 0
    (by omega) hu
  refine ⟨⟨⟨p.piece.Index, p.piece.Begin, d2⟩, prog2⟩, ?_, ?_, ?_, fun k => ?_⟩
  · rw [put, if_pos hguard, hc, hm]
  · rw [← hd]
    exact hcl
  · exact hml
  · have := hmk k
    rw [Nat.add_zero] at this
    exact this

/-- `cachedPiece.done` holds iff every status byte is `Obtained`. -/
theorem done_iff (prog : List Nat) :
    done prog = true ↔ ∀ k, k < prog.length → prog.getD k 0 = Obtained := by
  rw [done, List.all_eq_true]
  constructor
  · intro h k hk
    rw [List.getD_eq_getElem _ _ hk]
    exact beq_iff_eq.mp (h prog[k] (prog.getElem_mem hk))
  · intro h b hb
    obtain ⟨k, hk, rfl⟩ := List.mem_iff_getElem.mp hb
    rw [beq_iff_eq]
    have := h k hk
    rwa [List.getD_eq_getElem _ _ hk] at this

/-- Effect of a sequence of in-bounds `put` calls on the status array: a
byte is `Obtained` afterwards iff some call's range covered it or it
already was `Obtained`. -/
theorem runPuts_spec (puts : List (Nat × List Nat)) : ∀ (p : CachedPiece) (n : Nat),
    p.piece.Data.length = n → p.progress.length = n → n < U32 →
    (∀ pr ∈ puts, pr.1 + pr.2.length ≤ n) →
    ∃ p2, runPuts p puts = some p2 ∧ p2.piece.Data.length = n ∧ p2.progress.length = n ∧
      ∀ k, (p2.progress.getD k 0 = Obtained ↔
        ((∃ pr ∈ puts, pr.1 ≤ k ∧ k < pr.1 + pr.2.length) ∨
          p.progress.getD k 0 = Obtained)) := by
  induction puts with
  | nil =>
    intro p n h1 h2 _ _
    exact ⟨p, rfl, h1, h2, fun k => by simp⟩
  | cons pr rest ih =>
    intro p n h1 h2 h3 h4
    obtain ⟨p2, hput, hl1, hl2, hk⟩ := put_spec p pr.1 pr.2 (h1.trans h2.symm)
      (by rw [h2]; exact h3) (by rw [h2]; exact h4 pr (by simp))
    obtain ⟨p3, hrun, g1, g2, gk⟩ := ih p2 n (hl1.trans h2) (hl2.trans h2) h3
      (fun q hq => h4 q (by simp [hq]))
    refine ⟨p3, ?_, g1, g2, fun k => ?_⟩
    · simp only [runPuts, hput]
      exact hrun
    · have hsplit : (p2.progress.getD k 0 = Obtained) ↔
          ((pr.1 ≤ k ∧ k < pr.1 + pr.2.length) ∨ p.progress.getD k 0 = Obtained) := by
        rw [hk k]
        by_cases hc : pr.1 ≤ k ∧ k < pr.1 + pr.2.length
        · simp [hc]
        · simp [hc]
      rw [gk k, hsplit]
      constructor
      · rintro (⟨q, hq, hqr⟩ | hin | hold)
        · exact Or.inl ⟨q, by simp [hq], hqr⟩
        · exact Or.inl ⟨pr, by simp, hin⟩
        · exact Or.inr hold
      · rintro (⟨q, hq, hqr⟩ | hold)
        · rcases List.mem_cons.mp hq with hq1 | hq2
          · subst hq1
            exact Or.inr (Or.inl hqr)
          · exact Or.inl ⟨q, hq2, hqr⟩
        · exact Or.inr (Or.inr hold)

/-! ## Helper lemmas about `PersistPeer` and the `Announce` peer loop -/

/-- One-step unfolding of the `PersistPeer` retry loop. -/
theorem persistPeerLoop_eq (dn : Nat → Bool) (er : Nat → Option Nat) (triesLeft k : Nat) :
    persistPeerLoop dn er triesLeft k =
      if dn k then (k, false)
      else
        match er k with
        | none => (k + 1, true)
        | some _ =>
          match triesLeft with
          | 0 => (k + 1, false)
          | 1 => (k + 1, false)
          | _ + 2 => persistPeerLoop dn er (triesLeft - 1) (k + 1) := by
  cases triesLeft with
  | zero => rfl
  | succ t =>
    cases t with
    | zero => rfl
    | succ s => rfl

/-- When the torrent never completes and every attempt fails, the retry
loop makes exactly `triesLeft` further attempts and reports no success. -/
theorem persistPeerLoop_allFail (dn : Nat → Bool) (er : Nat → Option Nat)
    (h1 : ∀ k, dn k = false) (h2 : ∀ k, (er k).isSome) :
    ∀ t k, 1 ≤ t → persistPeerLoop dn er t k = (k + t, false) := by
  intro t
  induction t with
  | zero => intro k h; omega
  | succ t ih =>
    intro k _
    obtain ⟨e, he⟩ := Option.isSome_iff_exists.mp (h2 k)
    rw [persistPeerLoop_eq, h1 k, if_neg (by simp), he]
    cases t with
    | zero => rfl
    | succ s =>
      show persistPeerLoop dn er (s + 1) (k + 1) = (k + (s + 1 + 1), false)
      rw [ih (k + 1) (by omega)]
      have : k + 1 + (s + 1) = k + (s + 1 + 1) := by omega
      rw [this]

/-- When the first `m` checks see an incomplete torrent and failing
attempts, and attempt `m` succeeds, the loop stops right after it. -/
theorem persistPeerLoop_success (m : Nat) : ∀ (dn : Nat → Bool) (er : Nat → Option Nat)
    (t k : Nat), m + 1 ≤ t →
    (∀ i, i < m → dn (k + i) = false ∧ (er (k + i)).isSome) →
    dn (k + m) = false → er (k + m) = none →
    persistPeerLoop dn er t k = (k + m + 1, true) := by
  induction m with
  | zero =>
    intro dn er t k _ _ hdn her
    rw [Nat.add_zero] at hdn her
    rw [persistPeerLoop_eq, hdn, if_neg (by simp), her]
  | succ m ih =>
    intro dn er t k ht hpre hdn her
    obtain ⟨hdn0, hs0⟩ := hpre 0 (by omega)
    rw [Nat.add_zero] at hdn0 hs0
    obtain ⟨e, he⟩ := Option.isSome_iff_exists.mp hs0
    obtain ⟨s, rfl⟩ : ∃ s, t = s + 2 := ⟨t - 2, by omega⟩
    rw [persistPeerLoop_eq, hdn0, if_neg (by simp), he]
    have hrec := ih dn er (s + 1) (k + 1) (by omega)
      (fun i hi => by
        have := hpre (i + 1) (by omega)
        rwa [show k + (i + 1) = k + 1 + i by omega] at this)
      (by rwa [show k + 1 + m = k + (m + 1) by omega])
      (by rwa [show k + 1 + m = k + (m + 1) by omega])
    show persistPeerLoop dn er (s + 1) (k + 1) = (k + (m + 1) + 1, true)
    rw [hrec]
    have : k + 1 + m + 1 = k + (m + 1) + 1 := by omega
    rw [this]

/-- When the first `m` checks see an incomplete torrent and failing
attempts, and at check `m` the torrent is done, the loop stops without a
further attempt. -/
theorem persistPeerLoop_doneExit (m : Nat) : ∀ (dn : Nat → Bool) (er : Nat → Option Nat)
    (t k : Nat), m + 1 ≤ t →
    (∀ i, i < m → dn (k + i) = false ∧ (er (k + i)).isSome) →
    dn (k + m) = true →
    persistPeerLoop dn er t k = (k + m, false) := by
  induction m with
  | zero =>
    intro dn er t k _ _ hdn
    rw [Nat.add_zero] at hdn
    rw [persistPeerLoop_eq, hdn, if_pos rfl]
    rfl
  | succ m ih =>
    intro dn er t k ht hpre hdn
    obtain ⟨hdn0, hs0⟩ := hpre 0 (by omega)
    rw [Nat.add_zero] at hdn0 hs0
    obtain ⟨e, he⟩ := Option.isSome_iff_exists.mp hs0
    obtain ⟨s, rfl⟩ : ∃ s, t = s + 2 := ⟨t - 2, by omega⟩
    rw [persistPeerLoop_eq, hdn0, if_neg (by simp), he]
    have hrec := ih dn er (s + 1) (k + 1) (by omega)
      (fun i hi => by
        have := hpre (i + 1) (by omega)
        rwa [show k + (i + 1) = k + 1 + i by omega] at this)
      (by rwa [show k + 1 + m = k + (m + 1) by omega])
    show persistPeerLoop dn er (s + 1) (k + 1) = (k + (m + 1), false)
    rw [hrec]
    have : k + 1 + m = k + (m + 1) := by omega
    rw [this]

/-- Unfolding the `Announce` peer loop one candidate at a time. -/
theorem announce_cons (l : String) (st : AnnounceState) (c : Option String)
    (rest : List (Option String)) :
    announce l st (c :: rest) = announce l (announceStep l st c) rest := rfl

/-- An address already known in the `conns` map is left untouched by the
peer loop: its map entry survives and no `PersistPeer` is started for it. -/
theorem announce_preserves (cands : List (Option String)) :
    ∀ (l : String) (st : AnnounceState) (a : String),
    (st.conns.lookup a).isSome →
    ((announce l st cands).conns.lookup a = st.conns.lookup a ∧
     (announce l st cands).dialed.count a = st.dialed.count a) := by
  induction cands with
  | nil => intro l st a _; exact ⟨rfl, rfl⟩
  | cons c rest ih =>
    intro l st a h
    rw [announce_cons]
    cases c with
    | none => exact ih l st a h
    | some b =>
      by_cases hb : b = l ∨ (st.conns.lookup b).isSome
      · simp only [announceStep, if_pos hb]
        exact ih l st a h
      · simp only [announceStep, if_neg hb]
        have hne : a ≠ b := by
          intro heq
          subst heq
          exact hb (Or.inr h)
        have hba : (a == b) = false := beq_eq_false_iff_ne.mpr hne
        have hab : (b == a) = false := beq_eq_false_iff_ne.mpr (Ne.symm hne)
        have hlook : ((⟨(b, false) :: st.conns, st.dialed ++ [b]⟩ :
            AnnounceState).conns.lookup a) = st.conns.lookup a := by
          rw [List.lookup_cons, hba]
        obtain ⟨g1, g2⟩ := ih l ⟨(b, false) :: st.conns, st.dialed ++ [b]⟩ a
          (by rw [hlook]; exact h)
        refine ⟨by rw [g1, hlook], ?_⟩
        rw [g2]
        show List.count a (st.dialed ++ [b]) = List.count a st.dialed
        rw [List.count_append, List.count_singleton, hab]
        simp

/-- A fresh candidate address (not the local one, not yet in `conns`) that
occurs among the resolved candidates is dialed exactly once and ends up
reserved as `false` in the map. -/
theorem announce_dials_once (cands : List (Option String)) :
    ∀ (l : String) (st : AnnounceState) (a : String),
    a ≠ l → st.conns.lookup a = none → some a ∈ cands →
    ((announce l st cands).dialed.count a = st.dialed.count a + 1 ∧
     (announce l st cands).conns.lookup a = some false) := by
  induction cands with
  | nil => intro _ _ _ _ _ hmem; cases hmem
  | cons c rest ih =>
    intro l st a hal hnone hmem
    rw [announce_cons]
    by_cases hc : c = some a
    · subst hc
      have hcond : ¬(a = l ∨ (st.conns.lookup a).isSome) := by
        rintro (h | h)
        · exact hal h
        · rw [hnone] at h
          cases h
      simp only [announceStep, if_neg hcond]
      have hsome : ((⟨(a, false) :: st.conns, st.dialed ++ [a]⟩ :
          AnnounceState).conns.lookup a) = some false := by
        rw [List.lookup_cons, beq_self_eq_true]
      obtain ⟨g1, g2⟩ := announce_preserves rest l
        ⟨(a, false) :: st.conns, st.dialed ++ [a]⟩ a (by rw [hsome]; rfl)
      refine ⟨?_, by rw [g1, hsome]⟩
      rw [g2]
      show List.count a (st.dialed ++ [a]) = List.count a st.dialed + 1
      rw [List.count_append, List.count_singleton, beq_self_eq_true]
      simp
    · have hmem' : some a ∈ rest := by
        rcases List.mem_cons.mp hmem with h | h
        · exact absurd h.symm hc
        · exact h
      cases c with
      | none => exact ih l st a hal hnone hmem'
      | some b =>
        have hne : a ≠ b := by
          intro heq
          exact hc (by rw [heq])
        have hba : (a == b) = false := beq_eq_false_iff_ne.mpr hne
        have hab : (b == a) = false := beq_eq_false_iff_ne.mpr (Ne.symm hne)
        by_cases hb : b = l ∨ (st.conns.lookup b).isSome
        · simp only [announceStep, if_pos hb]
          exact ih l st a hal hnone hmem'
        · simp only [announceStep, if_neg hb]
          obtain ⟨g1, g2⟩ := ih l ⟨(b, false) :: st.conns, st.dialed ++ [b]⟩ a hal
            (by rw [List.lookup_cons, hba]; exact hnone) hmem'
          refine ⟨?_, g2⟩
          rw [g1]
          show List.count a (st.dialed ++ [b]) + 1 = List.count a st.dialed + 1
          rw [List.count_append, List.count_singleton, hab]
          simp

/-- The local address is never dialed by the peer loop. -/
theorem announce_no_self (cands : List (Option String)) :
    ∀ (l : String) (st : AnnounceState),
    (announce l st cands).dialed.count l = st.dialed.count l := by
  induction cands with
  | nil => intro _ _; rfl
  | cons c rest ih =>
    intro l st
    rw [announce_cons]
    cases c with
    | none => exact ih l st
    | some b =>
      by_cases hb : b = l ∨ (st.conns.lookup b).isSome
      · simp only [announceStep, if_pos hb]
        exact ih l st
      · simp only [announceStep, if_neg hb]
        rw [ih l _]
        have hbl : (b == l) = false := by
          rw [beq_eq_false_iff_ne]
          exact fun h => hb (Or.inl h)
        simp [List.count_append, List.count_singleton, hbl]

/-! ## Claim theorems -/

/-- C1: when the dial, the handshake send and the handshake receive all
succeed but the received infohash differs byte-for-byte from the local
one, `AddPeer` closes the connection and does not register the peer as
active — but, contrary to the claim, it returns the `nil` error left by
the successful `Recv` (`error = none`), not a non-nil error. -/
theorem C1_mismatch_closes_but_returns_nil (ih rih : List Nat) (h : ih ≠ rih) :
    addPeer ih none none none rih =
      { connClosed := true, registeredActive := false, error := none } := by
  simp only [addPeer]
  rw [if_neg h]

/-- Witness for C1 at a concrete mismatching pair of infohashes. -/
theorem C1_mismatch_closes_but_returns_nil_witness :
    ([0] : List Nat) ≠ [1] ∧
      addPeer [0] none none none [1] =
        { connClosed := true, registeredActive := false, error := none } :=
  ⟨by decide, C1_mismatch_closes_but_returns_nil [0] [1] (by decide)⟩

/-- C2: on a status array consisting of one full stride of `Missing`
bytes, `nextOffset` marks the stride `Pending` and returns its offset 0,
but the `has` flag of the result is `false`, not `true` as the claim
states: the `return` inside the loop fires before `has` is ever set and
the trailing `if idx < l { has = true }` is dead code. -/
theorem C2_nextOffset_reports_false_on_missing_stride :
    nextOffset (List.replicate BlockSize Missing) =
      some (false, 0, List.replicate BlockSize Pending) := by
  obtain ⟨prog2, he, hlen, hk⟩ :=
    markPendingLoop_some BlockSize (List.replicate BlockSize Missing) 0 (by simp)
  have h0 : 0 < (List.replicate BlockSize Missing).length := by
    rw [List.length_replicate]
    norm_num [BlockSize]
  have hget : (List.replicate BlockSize Missing)[0] = Missing :=
    List.getElem_replicate _ _
  rw [nextOffset, nextOffsetLoop_eq, dif_pos h0, if_pos hget, he]
  have hprog : prog2 = List.replicate BlockSize Pending := by
    apply List.ext_getElem
    · rw [hlen]
      simp
    · intro n h1 h2
      have hn : n < BlockSize := by
        rw [hlen, List.length_replicate] at h1
        exact h1
      have := hk n
      rw [List.getD_eq_getElem _ _ h1, if_pos (by omega)] at this
      rw [this, List.getElem_replicate]
  rw [hprog]

/-- C3 counterexample: a status array of length `BlockSize + 1` whose
final (partial) stride starts with `Missing` but whose first stride also
starts with `Missing`: `nextOffset` claims the first, full stride and
returns without any out-of-range access, refuting the claim's universal
statement. -/
theorem C3_partial_stride_counterexample :
    ((List.replicate BlockSize Missing ++ [Missing]).length % BlockSize ≠ 0) ∧
    ((List.replicate BlockSize Missing ++ [Missing]).getD
        ((List.replicate BlockSize Missing ++ [Missing]).length -
          (List.replicate BlockSize Missing ++ [Missing]).length % BlockSize) 0 = Missing) ∧
    (nextOffset (List.replicate BlockSize Missing ++ [Missing])).isSome := by
  have hlen : (List.replicate BlockSize Missing ++ [Missing]).length = BlockSize + 1 := by
    simp
  have hmod : (BlockSize + 1) % BlockSize = 1 := by norm_num [BlockSize]
  refine ⟨?_, ?_, ?_⟩
  · rw [hlen, hmod]
    omega
  · rw [hlen, hmod]
    have h1 : BlockSize + 1 - 1 = BlockSize := by omega
    rw [h1, List.getD_eq_getElem _ _ (by rw [hlen]; omega),
      List.getElem_append_right (by simp)]
    simp
  · have h0 : 0 < (List.replicate BlockSize Missing ++ [Missing]).length := by
      rw [hlen]
      omega
    have hget : (List.replicate BlockSize Missing ++ [Missing])[0] = Missing := by
      rw [List.getElem_append_left (by rw [List.length_replicate]; norm_num [BlockSize])]
      exact List.getElem_replicate _ _
    obtain ⟨prog2, he, -, -⟩ :=
      markPendingLoop_some BlockSize (List.replicate BlockSize Missing ++ [Missing]) 0
        (by rw [hlen]; omega)
    rw [nextOffset, nextOffsetLoop_eq, dif_pos h0, if_pos hget, he]
    rfl

/-- C3 as amended: (a) when the status array's length is a multiple of
`BlockSize`, `nextOffset` never indexes out of bounds; (b) when the
length is not a multiple of `BlockSize`, the final partial stride's first
byte is `Missing`, and additionally no earlier stride's first byte is
`Missing`, the marking loop runs past the end of the array (the embedded
scan returns `none`, the model of the Go panic). -/
theorem C3_partial_stride_panic_amended :
    (∀ prog : List Nat, prog.length % BlockSize = 0 → (nextOffset prog).isSome) ∧
    (∀ prog : List Nat, prog.length % BlockSize ≠ 0 →
      (∀ m, m * BlockSize < prog.length - prog.length % BlockSize →
        prog.getD (m * BlockSize) 0 ≠ Missing) →
      prog.getD (prog.length - prog.length % BlockSize) 0 = Missing →
      nextOffset prog = none) := by
  constructor
  · intro prog h
    exact nextOffsetLoop_isSome prog h 0 (by simp)
  · intro prog hmod hpre hlast
    have hBpos : 0 < BlockSize := by norm_num [BlockSize]
    have hle : prog.length % BlockSize ≤ prog.length := Nat.mod_le _ _
    have hrlt : prog.length % BlockSize < BlockSize := Nat.mod_lt _ hBpos
    have hrpos : 0 < prog.length % BlockSize := Nat.pos_of_ne_zero hmod
    obtain ⟨q, hq⟩ : ∃ q, prog.length - prog.length % BlockSize = q * BlockSize :=
      ⟨prog.length / BlockSize, by
        have h1 := Nat.div_add_mod prog.length BlockSize
        have h2 : prog.length / BlockSize * BlockSize =
            BlockSize * (prog.length / BlockSize) := Nat.mul_comm _ _
        omega⟩
    have hqlt : q * BlockSize < prog.length := by rw [← hq]; omega
    have hskip := nextOffsetLoop_skip q prog 0
      (by rw [Nat.zero_add, ← hq]; omega)
      (fun i hi => by
        rw [Nat.zero_add]
        exact hpre i (by rw [hq]; exact mul_lt_mul_of_pos_right hi hBpos))
    rw [Nat.zero_add] at hskip
    rw [hq] at hlast
    rw [List.getD_eq_getElem _ _ hqlt] at hlast
    rw [nextOffset, hskip, nextOffsetLoop_eq, dif_pos hqlt, if_pos hlast,
      markPendingLoop_none BlockSize prog (q * BlockSize) hBpos (by rw [← hq]; omega)]

/-- Witness for C3: part (a) applied to the empty array, part (b) applied
to a one-byte array `[Missing]`, whose only (partial) stride panics. -/
theorem C3_partial_stride_panic_amended_witness :
    (nextOffset ([] : List Nat)).isSome ∧ nextOffset [Missing] = none := by
  constructor
  · exact C3_partial_stride_panic_amended.1 [] (by simp)
  · refine C3_partial_stride_panic_amended.2 [Missing] (by decide) ?_ (by decide)
    intro m hm
    have : ([Missing] : List Nat).length - [Missing].length % BlockSize = 0 := by decide
    rw [this] at hm
    exact absurd hm (Nat.not_lt_zero _)

/-- C4: the 32-bit bounds check of `put` wraps: with a one-byte piece,
`offset = 2^32 - 1` and two bytes of data the check computes
`(2^32 - 1 + 2) mod 2^32 = 1 ≤ 1` and passes, and the subsequent
`copy(p.piece.Data[offset:], data)` slices far past the end of the
buffer: the call panics (`none`) instead of being a harmless no-op. -/
theorem C4_put_overflow_panics :
    put ⟨⟨0, 0, [0]⟩, [Missing]⟩ (2 ^ 32 - 1) [7, 7] = none := rfl

/-- C5: a zero-length request, or a request whose piece the storage does
not hold, makes the `Run` loop close the offending connection and send
nothing on it. -/
theorem C5_bad_request_closes (gp : PieceRequest → Option PieceData) (r : PieceRequest)
    (h : r.Length = 0 ∨ gp r = none) :
    runStep gp r = RunAction.closeConn := by
  rcases h with h | h
  · rw [runStep, if_neg (by omega)]
  · by_cases hl : 0 < r.Length
    · rw [runStep, if_pos hl, h]
    · rw [runStep, if_neg hl]

/-- Witness for C5: a zero-length request (even with the piece present)
and a request for an absent piece. -/
theorem C5_bad_request_closes_witness :
    runStep (fun _ => some ⟨0, 0, []⟩) ⟨0, 0, 0⟩ = RunAction.closeConn ∧
    runStep (fun _ => none) ⟨1, 0, 1⟩ = RunAction.closeConn :=
  ⟨C5_bad_request_closes _ _ (Or.inl rfl), C5_bad_request_closes _ _ (Or.inr rfl)⟩

/-- C6: when the storage returns piece data, the `Run` loop sends a
"piece"-typed wire message whose payload is the 4-byte big-endian index,
the 4-byte big-endian begin offset, then the raw data; in particular for
index 3, begin 0 and data `[1,2,3,4]` the payload is
`00000003 00000000 01020304`. -/
theorem C6_piece_response_payload :
    (∀ (gp : PieceRequest → Option PieceData) (r : PieceRequest) (p : PieceData),
      0 < r.Length → gp r = some p →
      runStep gp r = RunAction.send ⟨Piece, be32 p.Index ++ be32 p.Begin ++ p.Data⟩) ∧
    be32 3 ++ be32 0 ++ [1, 2, 3, 4] = [0, 0, 0, 3, 0, 0, 0, 0, 1, 2, 3, 4] := by
  constructor
  · intro gp r p hl hp
    rw [runStep, if_pos hl, hp]
  · decide

/-- Witness for C6 at the spec's concrete example. -/
theorem C6_piece_response_payload_witness :
    (0 : Nat) < (⟨3, 0, 4⟩ : PieceRequest).Length ∧
    runStep (fun _ => some ⟨3, 0, [1, 2, 3, 4]⟩) ⟨3, 0, 4⟩ =
      RunAction.send ⟨Piece, be32 3 ++ be32 0 ++ [1, 2, 3, 4]⟩ :=
  ⟨by decide, C6_piece_response_payload.1 _ _ _ (by decide) rfl⟩

/-- C7: if the torrent never reports `Done` and every `AddPeer` attempt
fails, `PersistPeer` stops after exactly 10 attempts, without connecting
and without surfacing an error; it stops early right after a successful
attempt, or as soon as `Done()` turns true at a loop check. -/
theorem C7_persistPeer_retries (dn : Nat → Bool) (er : Nat → Option Nat) :
    ((∀ k, dn k = false) → (∀ k, (er k).isSome) → persistPeer dn er = (10, false)) ∧
    (∀ j, j < 10 → (∀ i, i < j → dn i = false ∧ (er i).isSome) →
      dn j = false → er j = none → persistPeer dn er = (j + 1, true)) ∧
    (∀ j, j < 10 → (∀ i, i < j → dn i = false ∧ (er i).isSome) →
      dn j = true → persistPeer dn er = (j, false)) := by
  refine ⟨?_, ?_, ?_⟩
  · intro h1 h2
    rw [persistPeer, persistPeerLoop_allFail dn er h1 h2 10 0 (by omega)]
  · intro j hj hpre hdn her
    rw [persistPeer, persistPeerLoop_success j dn er 10 0 (by omega)
      (fun i hi => by simpa using hpre i hi) (by simpa using hdn) (by simpa using her)]
    simp
  · intro j hj hpre hdn
    rw [persistPeer, persistPeerLoop_doneExit j dn er 10 0 (by omega)
      (fun i hi => by simpa using hpre i hi) (by simpa using hdn)]
    simp

/-- Witness for C7: never-done always-failing attempts stop at exactly 10;
success at attempt 3 stops at 4 attempts; `Done` turning true at check 2
stops with 2 attempts made. -/
theorem C7_persistPeer_retries_witness :
    persistPeer (fun _ => false) (fun _ => some 0) = (10, false) ∧
    persistPeer (fun _ => false) (fun k => if k < 3 then some 0 else none) = (3 + 1, true) ∧
    persistPeer (fun k => decide (2 ≤ k)) (fun _ => some 0) = (2, false) := by
  refine ⟨?_, ?_, ?_⟩
  · exact (C7_persistPeer_retries _ _).1 (fun _ => rfl) (fun _ => rfl)
  · exact (C7_persistPeer_retries _ _).2.1 3 (by omega)
      (fun i hi => ⟨rfl, by simp [hi]⟩) rfl (by simp)
  · exact (C7_persistPeer_retries _ _).2.2 2 (by omega)
      (fun i hi => ⟨decide_eq_false_iff_not.mpr (by omega), rfl⟩) rfl

/-- C8 counterexample: a piece of two strides whose first stride's first
byte is `Missing` and whose second stride is fully `Pending`.  Cancelling
the second stride resets it to `Missing`, but the following `nextOffset`
claims the FIRST stride (offset 0), not the cancelled one at offset
`BlockSize`: the claim's "returns its offset" fails. -/
theorem C8_cancel_reclaim_counterexample :
    ∃ p1, cancel ⟨⟨0, 0, List.replicate (2 * BlockSize) 0⟩,
        List.replicate BlockSize Missing ++ List.replicate BlockSize Pending⟩
        BlockSize BlockSize = some p1 ∧
      nextOffset p1.progress =
        some (false, 0, List.replicate BlockSize Pending ++ List.replicate BlockSize Missing) ∧
      (0 : Nat) ≠ BlockSize := by
  have hplen : (List.replicate BlockSize Missing ++
      List.replicate BlockSize Pending).length = BlockSize + BlockSize := by
    simp
  have hB : 0 < BlockSize := by norm_num [BlockSize]
  have hult : BlockSize + BlockSize < U32 := by norm_num [BlockSize, U32]
  obtain ⟨prog1, hc, hlen1, hk1⟩ :=
    cancel_spec ⟨⟨0, 0, List.replicate (2 * BlockSize) 0⟩,
        List.replicate BlockSize Missing ++ List.replicate BlockSize Pending⟩
      BlockSize BlockSize
      (by
        show BlockSize + BlockSize ≤
          (List.replicate BlockSize Missing ++ List.replicate BlockSize Pending).length
        rw [hplen])
      (by
        show (List.replicate BlockSize Missing ++
          List.replicate BlockSize Pending).length < U32
        rw [hplen]
        exact hult)
  rw [show (⟨⟨0, 0, List.replicate (2 * BlockSize) 0⟩,
      List.replicate BlockSize Missing ++ List.replicate BlockSize Pending⟩ :
      CachedPiece).progress = List.replicate BlockSize Missing ++
      List.replicate BlockSize Pending from rfl] at hlen1 hk1
  refine ⟨⟨⟨0, 0, List.replicate (2 * BlockSize) 0⟩, prog1⟩, ?_, ?_, by omega⟩
  · exact hc
  · show nextOffset prog1 = some (false, 0,
      List.replicate BlockSize Pending ++ List.replicate BlockSize Missing)
    have h1len : prog1.length = BlockSize + BlockSize := by rw [hlen1, hplen]
    have h0 : 0 < prog1.length := by omega
    have hget0 : prog1[0] = Missing := by
      rw [← List.getD_eq_getElem _ _ h0, hk1 0, if_neg (by omega),
        List.getD_eq_getElem _ _ (by rw [hplen]; omega),
        List.getElem_append_left (by rw [List.length_replicate]; omega)]
      exact List.getElem_replicate _ _
    obtain ⟨prog2, hm, hlen2, hk2⟩ := markPendingLoop_some BlockSize prog1 0 (by omega)
    rw [nextOffset, nextOffsetLoop_eq, dif_pos h0, if_pos hget0, hm]
    have hprog : prog2 = List.replicate BlockSize Pending ++
        List.replicate BlockSize Missing := by
      apply List.ext_getElem
      · rw [hlen2]
        simp [h1len]
      · intro n hn1 hn2
        have hnlt : n < BlockSize + BlockSize := by
          rw [hlen2] at hn1
          omega
        rw [← List.getD_eq_getElem _ _ hn1, hk2 n]
        by_cases hc1 : n < BlockSize
        · rw [if_pos (by omega),
            List.getElem_append_left (by rw [List.length_replicate]; omega)]
          exact (List.getElem_replicate _ _).symm
        · rw [if_neg (by omega), hk1 n, if_pos (by omega),
            List.getElem_append_right (by rw [List.length_replicate]; omega)]
          exact (List.getElem_replicate _ _).symm
    rw [hprog]

/-- C8 as amended: for an in-bounds block-aligned stride whose bytes are
all `Pending` or `Obtained`, if additionally no earlier stride's first
byte is `Missing`, then `cancel` over exactly that stride resets it to
`Missing` and the next `nextOffset` claims that same stride again: it
returns the stride's offset and re-marks its bytes `Pending`. -/
theorem C8_cancel_reclaim_amended (p : CachedPiece) (o : Nat)
    (ho : o % BlockSize = 0)
    (hin : o + BlockSize ≤ p.progress.length)
    (hu : p.progress.length < U32)
    (_hstat : ∀ j, o ≤ j → j < o + BlockSize →
      p.progress.getD j 0 = Pending ∨ p.progress.getD j 0 = Obtained)
    (hearly : ∀ m, m * BlockSize < o → p.progress.getD (m * BlockSize) 0 ≠ Missing) :
    ∃ p1 prog2, cancel p o BlockSize = some p1 ∧
      nextOffset p1.progress = some (false, o, prog2) ∧
      ∀ j, o ≤ j → j < o + BlockSize → prog2.getD j 0 = Pending := by
  have hB : 0 < BlockSize := by norm_num [BlockSize]
  have hguard : (o + BlockSize) % U32 ≤ p.progress.length % U32 := by
    rw [Nat.mod_eq_of_lt (by omega : o + BlockSize < U32), Nat.mod_eq_of_lt hu]
    exact hin
  obtain ⟨prog1, hc, hlen1, hk1⟩ := cancelLoop_some BlockSize p.progress o hin hu
  refine ⟨⟨p.piece, prog1⟩, ?_⟩
  obtain ⟨q, hq⟩ : ∃ q, o = q * BlockSize :=
    ⟨o / BlockSize, (Nat.div_mul_cancel (Nat.dvd_of_mod_eq_zero ho)).symm⟩
  have holt : o < prog1.length := by omega
  have hget : prog1[o] = Missing := by
    rw [← List.getD_eq_getElem _ _ holt, hk1 o, if_pos (by omega)]
  obtain ⟨prog2, hm, hlen2, hk2⟩ := markPendingLoop_some BlockSize prog1 o (by omega)
  have hskip := nextOffsetLoop_skip q prog1 0
    (by rw [Nat.zero_add, ← hq]; omega)
    (fun i hi => by
      rw [Nat.zero_add, hk1 (i * BlockSize),
        if_neg (by
          have : i * BlockSize < o := by
            rw [hq]
            exact mul_lt_mul_of_pos_right hi hB
          omega)]
      exact hearly i (by rw [hq]; exact mul_lt_mul_of_pos_right hi hB))
  rw [Nat.zero_add, ← hq] at hskip
  refine ⟨prog2, ?_, ?_, fun j hj1 hj2 => ?_⟩
  · rw [cancel, if_pos hguard, hc]
  · show nextOffset prog1 = some (false, o, prog2)
    rw [nextOffset, hskip, nextOffsetLoop_eq, dif_pos holt, if_pos hget, hm]
  · rw [hk2 j, if_pos (by omega)]

/-- Witness for C8: a single fully `Pending` stride at offset 0 is
cancelled and immediately re-claimed by `nextOffset`. -/
theorem C8_cancel_reclaim_amended_witness :
    ∃ p1 prog2,
      cancel ⟨⟨0, 0, List.replicate BlockSize 0⟩, List.replicate BlockSize Pending⟩
          0 BlockSize = some p1 ∧
        nextOffset p1.progress = some (false, 0, prog2) ∧
        ∀ j, 0 ≤ j → j < 0 + BlockSize → prog2.getD j 0 = Pending := by
  apply C8_cancel_reclaim_amended
  · simp
  · rw [List.length_replicate]
    omega
  · rw [List.length_replicate]
    norm_num [BlockSize, U32]
  · intro j h0 hB
    left
    rw [List.getD_eq_getElem _ _ (by rw [List.length_replicate]; omega)]
    exact List.getElem_replicate _ _
  · intro m hm
    exact absurd hm (Nat.not_lt_zero _)

/-- C9: `done` holds iff every status byte is `Obtained`; consequently,
starting from an all-`Missing` piece, after any sequence of in-bounds
`put` calls `done` holds iff the union of the written ranges covers every
byte of the status array. -/
theorem C9_done_iff_covered :
    (∀ prog : List Nat, done prog = true ↔
      ∀ k, k < prog.length → prog.getD k 0 = Obtained) ∧
    (∀ (n : Nat) (puts : List (Nat × List Nat)), n < U32 →
      (∀ pr ∈ puts, pr.1 + pr.2.length ≤ n) →
      ∃ p2, runPuts ⟨⟨0, 0, List.replicate n 0⟩, List.replicate n Missing⟩ puts = some p2 ∧
        (done p2.progress = true ↔
          ∀ k, k < n → ∃ pr ∈ puts, pr.1 ≤ k ∧ k < pr.1 + pr.2.length)) := by
  constructor
  · exact done_iff
  · intro n puts hu hb
    obtain ⟨p2, hrun, hl1, hl2, hk⟩ := runPuts_spec puts
      ⟨⟨0, 0, List.replicate n 0⟩, List.replicate n Missing⟩ n (by simp) (by simp) hu hb
    refine ⟨p2, hrun, ?_⟩
    rw [done_iff]
    constructor
    · intro h k hkn
      rcases (hk k).mp (h k (by rw [hl2]; exact hkn)) with h1 | h2
      · exact h1
      · exfalso
        have h2' : (List.replicate n Missing).getD k 0 = Obtained := h2
        rw [List.getD_eq_getElem _ _ (by rw [List.length_replicate]; exact hkn),
          List.getElem_replicate] at h2'
        exact absurd h2' (by decide)
    · intro h k hkl
      exact (hk k).mpr (Or.inl (h k (by rwa [hl2] at hkl)))

/-- Witness for C9 on a two-byte piece covered by two one-byte puts. -/
theorem C9_done_iff_covered_witness :
    ∃ p2, runPuts ⟨⟨0, 0, List.replicate 2 0⟩, List.replicate 2 Missing⟩
        [(0, [5]), (1, [6])] = some p2 ∧
      (done p2.progress = true ↔
        ∀ k, k < 2 → ∃ pr ∈ [(0, [5]), (1, [6])], pr.1 ≤ k ∧ k < pr.1 + pr.2.length) :=
  C9_done_iff_covered.2 2 [(0, [5]), (1, [6])] (by norm_num [U32]) (by decide)

/-- C10: a resolved candidate equal to the local address, or already a
key of the `conns` map, is never dialed; a fresh candidate is reserved as
`false` in the map and dialed exactly once, so duplicate candidates for
one address yield a single `PersistPeer` attempt. -/
theorem C10_announce_dedup (localAddr : String) (st : AnnounceState)
    (cands : List (Option String)) (a : String) :
    (a = localAddr →
      (announce localAddr st cands).dialed.count a = st.dialed.count a) ∧
    ((st.conns.lookup a).isSome →
      (announce localAddr st cands).dialed.count a = st.dialed.count a) ∧
    (a ≠ localAddr → st.conns.lookup a = none → some a ∈ cands →
      (announce localAddr st cands).dialed.count a = st.dialed.count a + 1 ∧
      (announce localAddr st cands).conns.lookup a = some false) := by
  refine ⟨?_, ?_, ?_⟩
  · intro h
    rw [h]
    exact announce_no_self cands localAddr st
  · intro h
    exact (announce_preserves cands localAddr st a h).2
  · intro h1 h2 h3
    exact announce_dials_once cands localAddr st a h1 h2 h3

/-- Witness for C10: two candidates for the same fresh address "A" plus a
self-address candidate "L"; "A" is dialed once and reserved `false`, "L"
is never dialed. -/
theorem C10_announce_dedup_witness :
    ((announce "L" ⟨[], []⟩ [some "A", some "A", some "L"]).dialed.count "A" =
        List.count "A" ([] : List String) + 1 ∧
      (announce "L" ⟨[], []⟩ [some "A", some "A", some "L"]).conns.lookup "A" =
        some false) ∧
    (announce "L" ⟨[], []⟩ [some "A", some "A", some "L"]).dialed.count "L" =
      List.count "L" ([] : List String) :=
  ⟨(C10_announce_dedup "L" ⟨[], []⟩ [some "A", some "A", some "L"] "A").2.2
      (by decide) rfl (by simp),
    (C10_announce_dedup "L" ⟨[], []⟩ [some "A", some "A", some "L"] "L").1 rfl⟩
